import Mathlib

/-!
Shallow embedding of `src/loss.py` (JAFAR loss functions) and verification of
the spec's claims about it.

Tensors are modelled as nested lists of rationals in `(batch, channel, height,
width)` order; PyTorch float arithmetic is modelled by exact rational
arithmetic, and the transcendental functions `torch.log` / `torch.sqrt` are
modelled as explicit function parameters (`lg`, `sq`), so every theorem holds
for an arbitrary logarithm / square-root function unless it states otherwise.
Python slice semantics (`[0:-2]`, `[2:]`, `[::k]`) are modelled by
`List.take (n-2)`, `List.drop 2` and `everyStep k`.
-/

set_option maxRecDepth 8000
set_option maxHeartbeats 1600000

/-- A rank-4 tensor `(batch, channel, height, width)` as nested lists. -/
abbrev T4 (α : Type) := List (List (List (List α)))

/-- A rank-3 tensor (one batch element: channel, height, width). -/
abbrev T3 (α : Type) := List (List (List α))

/-- Elementwise map over a rank-4 tensor. -/
def map4 (f : α → β) (t : T4 α) : T4 β :=
  t.map (fun a => a.map (fun b => b.map (fun c => c.map f)))

/-- Elementwise combination of two rank-4 tensors (PyTorch broadcasting is not
needed: the code only combines same-shaped tensors; `zipWith` truncates to the
common shape like NumPy would reject, which never triggers on the claims'
well-formed inputs). -/
def zip4 (f : α → β → γ) (s : T4 α) (t : T4 β) : T4 γ :=
  List.zipWith (fun a b =>
    List.zipWith (fun c d =>
      List.zipWith (fun e g => List.zipWith f e g) c d) a b) s t

/-- All elements of a rank-2 tensor, row-major. -/
def elems2 (t : List (List α)) : List α := t.flatMap (fun r => r)

/-- All elements of a rank-3 tensor, row-major. -/
def elems3 (t : T3 α) : List α := t.flatMap elems2

/-- All elements of a rank-4 tensor, row-major (PyTorch memory order). -/
def elems4 (t : T4 α) : List α := t.flatMap elems3

/-- `torch.sum` of a rank-4 tensor. -/
def sum4 (t : T4 ℚ) : ℚ := (elems4 t).sum

/-- `Tensor.numel()` of a rank-4 tensor. -/
def numel4 (t : T4 α) : ℕ := (elems4 t).length

/-- Python slice `l[::k]`: indices `0, k, 2k, ...` (for `k ≥ 1`): keep the
head, skip the next `k - 1` entries, repeat. -/
def everyStep (k : ℕ) : List α → List α
  | [] => []
  | x :: xs => x :: everyStep k (xs.drop (k - 1))
termination_by l => l.length
decreasing_by
  simp only [List.length_drop, List.length_cons]
  omega

/-- Python slice `l[0:-2]`. -/
def dropLast2 (l : List α) : List α := l.take (l.length - 2)

/-- Python `x[:, :, ::k, ::k]`: stride the two spatial dims of a 4-D tensor. -/
def downscale (k : ℕ) (t : T4 α) : T4 α :=
  t.map (fun chans => chans.map (fun hw => (everyStep k hw).map (everyStep k)))

/-- The shared epsilon `self.eps = 0.001` of `GradientLoss` and `SigLoss`. -/
def lossEps : ℚ := 1/1000

/-- `torch.abs` on a rational, written with an explicit sign test so that the
kernel can evaluate it. -/
def absQ (x : ℚ) : ℚ := if x < 0 then -x else x

/-- Validity predicate on a target element: `target > 0`, and additionally
`target <= max_depth` when a max depth is configured
(`torch.logical_and(target > 0, target <= self.max_depth)`). -/
def validB (md : Option ℚ) (t : ℚ) : Bool :=
  match md with
  | none => decide (0 < t)
  | some m => decide (0 < t) && decide (t ≤ m)

/-- Constructor arguments of `GradientLoss` that influence its value. -/
structure GradCfg where
  valid_mask : Bool
  loss_weight : ℚ
  max_depth : Option ℚ

/-- The mask built per scale in `GradientLoss.gradientloss`: the validity mask
when `valid_mask` is set, otherwise `torch.ones_like(target)`. -/
def GradientLoss.maskOf (cfg : GradCfg) (target : T4 ℚ) : T4 ℚ :=
  if cfg.valid_mask = true then
    map4 (fun t => if validB cfg.max_depth t then 1 else 0) target
  else
    map4 (fun _ => 1) target

/-- The normaliser `N` per scale: `torch.sum(mask)` when `valid_mask` is set,
otherwise `input.numel()`. -/
def GradientLoss.nVal (cfg : GradCfg) (input target : T4 ℚ) : ℚ :=
  if cfg.valid_mask = true then sum4 (GradientLoss.maskOf cfg target)
  else (numel4 input : ℚ)

/-- `log_d_diff = (log(input+eps) - log(target+eps)) * mask` per scale. -/
def GradientLoss.logDiff (lg : ℚ → ℚ) (cfg : GradCfg) (input target : T4 ℚ) : T4 ℚ :=
  zip4 (fun a b => a * b)
    (zip4 (fun a b => a - b)
      (map4 (fun x => lg (x + lossEps)) input)
      (map4 (fun x => lg (x + lossEps)) target))
    (GradientLoss.maskOf cfg target)

/-- `v_gradient`: `abs(d[0:-2, :] - d[2:, :])` times `mask[0:-2, :] * mask[2:, :]`.
Note the slices act on the FIRST two axes of the 4-D tensor exactly as in the
source (`log_d_diff[0:-2, :]` slices dim 0). -/
def GradientLoss.vGradient (d m : T4 ℚ) : T4 ℚ :=
  zip4 (fun a b => a * b)
    (zip4 (fun a b => absQ (a - b)) (dropLast2 d) (d.drop 2))
    (zip4 (fun a b => a * b) (dropLast2 m) (m.drop 2))

/-- `h_gradient`: `abs(d[:, 0:-2] - d[:, 2:])` times `mask[:, 0:-2] * mask[:, 2:]`
(slicing dim 1 of the 4-D tensor, as in the source). -/
def GradientLoss.hGradient (d m : T4 ℚ) : T4 ℚ :=
  zip4 (fun a b => a * b)
    (zip4 (fun a b => absQ (a - b)) (d.map dropLast2) (d.map (List.drop 2)))
    (zip4 (fun a b => a * b) (m.map dropLast2) (m.map (List.drop 2)))

/-- One scale's contribution: `(sum(h_gradient) + sum(v_gradient)) / N`. -/
def GradientLoss.scaleLoss (lg : ℚ → ℚ) (cfg : GradCfg) (input target : T4 ℚ) : ℚ :=
  (sum4 (GradientLoss.hGradient (GradientLoss.logDiff lg cfg input target)
          (GradientLoss.maskOf cfg target))
   + sum4 (GradientLoss.vGradient (GradientLoss.logDiff lg cfg input target)
          (GradientLoss.maskOf cfg target)))
  / GradientLoss.nVal cfg input target

/-- `[input] + [input[:, :, ::2*i, ::2*i] for i in range(1, 4)]`. -/
def GradientLoss.downscaledList (t : T4 ℚ) : List (T4 ℚ) :=
  [t] ++ [1, 2, 3].map (fun i => downscale (2 * i) t)

/-- `GradientLoss.gradientloss`: accumulate the per-scale losses over the
zipped downscaled input/target lists. -/
def GradientLoss.gradientloss (lg : ℚ → ℚ) (cfg : GradCfg) (input target : T4 ℚ) : ℚ :=
  (List.zipWith (GradientLoss.scaleLoss lg cfg)
    (GradientLoss.downscaledList input) (GradientLoss.downscaledList target)).sum

/-- `GradientLoss.forward`: `loss_weight * gradientloss(pred, gt)`. -/
def GradientLoss.forward (lg : ℚ → ℚ) (cfg : GradCfg) (depth_pred depth_gt : T4 ℚ) : ℚ :=
  cfg.loss_weight * GradientLoss.gradientloss lg cfg depth_pred depth_gt

/-- Constructor arguments of `SigLoss` that influence its value. -/
structure SigCfg where
  valid_mask : Bool
  loss_weight : ℚ
  max_depth : Option ℚ
  warm_up : Bool
  warm_iter : ℕ

/-- The flat list of `(input, target)` scalar pairs that `SigLoss.sigloss`
works on: boolean-mask indexing `input[valid_mask]`, `target[valid_mask]`
flattens row-major and keeps the positions whose target is valid; without
`valid_mask` the whole (flattened) arrays are used. -/
def SigLoss.sigElems (cfg : SigCfg) (input target : T4 ℚ) : List (ℚ × ℚ) :=
  let pairs := (elems4 input).zip (elems4 target)
  if cfg.valid_mask = true then pairs.filter (fun p => validB cfg.max_depth p.2)
  else pairs

/-- `torch.mean` of a flat list. -/
def meanQ (l : List ℚ) : ℚ := l.sum / (l.length : ℚ)

/-- `torch.var` of a flat list (PyTorch default: unbiased, divides by `n-1`). -/
def varQ (l : List ℚ) : ℚ :=
  (l.map (fun x => (x - meanQ l) ^ 2)).sum / ((l.length : ℚ) - 1)

/-- The list `g = log(input+eps) - log(target+eps)` over the selected pairs. -/
def SigLoss.gList (lg : ℚ → ℚ) (cfg : SigCfg) (input target : T4 ℚ) : List ℚ :=
  (SigLoss.sigElems cfg input target).map
    (fun p => lg (p.1 + lossEps) - lg (p.2 + lossEps))

/-- `SigLoss.sigloss`, with the mutable `warm_up_counter` made explicit: takes
the counter before the call, returns the loss value and the counter after the
call.  The warm-up branch (`if self.warm_up: if self.warm_up_counter <
self.warm_iter:`) returns `sqrt(0.15 * mean(g)^2)` and increments the counter;
otherwise the call returns `sqrt(var(g) + 0.15 * mean(g)^2)`. -/
def SigLoss.sigloss (lg sq : ℚ → ℚ) (cfg : SigCfg) (counter : ℕ)
    (input target : T4 ℚ) : ℚ × ℕ :=
  if cfg.warm_up = true ∧ counter < cfg.warm_iter then
    (sq ((3/20) * meanQ (SigLoss.gList lg cfg input target) ^ 2), counter + 1)
  else
    (sq (varQ (SigLoss.gList lg cfg input target)
        + (3/20) * meanQ (SigLoss.gList lg cfg input target) ^ 2), counter)

/-- `SigLoss.forward`: `loss_weight * sigloss(pred, gt)` (value, new counter). -/
def SigLoss.forward (lg sq : ℚ → ℚ) (cfg : SigCfg) (counter : ℕ)
    (depth_pred depth_gt : T4 ℚ) : ℚ × ℕ :=
  (cfg.loss_weight * (SigLoss.sigloss lg sq cfg counter depth_pred depth_gt).1,
   (SigLoss.sigloss lg sq cfg counter depth_pred depth_gt).2)

/-- Run a sequence of `forward` calls from a given counter, collecting the
returned loss values (the instance's counter threads through the calls). -/
def SigLoss.run (lg sq : ℚ → ℚ) (cfg : SigCfg) :
    ℕ → List (T4 ℚ × T4 ℚ) → List ℚ
  | _, [] => []
  | c, p :: rest =>
    (SigLoss.forward lg sq cfg c p.1 p.2).1 ::
      SigLoss.run lg sq cfg (SigLoss.forward lg sq cfg c p.1 p.2).2 rest

/-- The counter after running a sequence of `forward` calls. -/
def SigLoss.runCounter (lg sq : ℚ → ℚ) (cfg : SigCfg) :
    ℕ → List (T4 ℚ × T4 ℚ) → ℕ
  | c, [] => c
  | c, p :: rest =>
    SigLoss.runCounter lg sq cfg (SigLoss.forward lg sq cfg c p.1 p.2).2 rest

/-- `einops.rearrange(t, "b c h w -> (b h w) c")`: one row (feature vector over
channels) per `(batch, height, width)` position, batch outermost. -/
def rearrangeBCHW (t : T4 ℚ) : List (List ℚ) :=
  t.flatMap (fun chans =>
    (List.range (chans.headD []).length).flatMap (fun h =>
      (List.range ((chans.headD []).headD []).length).map (fun w =>
        chans.map (fun ch => (ch.getD h []).getD w 0))))

/-- `torch.min(t, dim=1).values` for one row. -/
def rowMin (r : List ℚ) : ℚ :=
  match r with
  | [] => 0
  | x :: xs => xs.foldl min x

/-- `torch.max(t, dim=1).values` for one row. -/
def rowMax (r : List ℚ) : ℚ :=
  match r with
  | [] => 0
  | x :: xs => xs.foldl max x

/-- Min-max normalise one row with the given (target-derived) min and max:
`(v - min) / (max - min + 1e-6)`. -/
def normRow (mn mx : ℚ) (r : List ℚ) : List ℚ :=
  r.map (fun v => (v - mn) / (mx - mn + 1/1000000))

/-- Dot product of two feature rows. -/
def dotQ (x y : List ℚ) : ℚ := (List.zipWith (fun a b => a * b) x y).sum

/-- `F.cosine_similarity` of two rows, with PyTorch's `1e-8` norm clamp; `sq`
models the square root. -/
def cosSim (sq : ℚ → ℚ) (x y : List ℚ) : ℚ :=
  dotQ x y / (max (sq (dotQ x x)) (1/100000000) * max (sq (dotQ y y)) (1/100000000))

/-- `torch.nn.CosineEmbeddingLoss()` (margin 0, mean reduction): per row,
`1 - cos(x, y)` when the label is `1`, else `max(0, cos(x, y))`. -/
def cosineEmbeddingLoss (sq : ℚ → ℚ) (x y : List (List ℚ)) (labels : List ℚ) : ℚ :=
  meanQ (List.zipWith (fun p lab =>
    if lab = 1 then 1 - cosSim sq p.1 p.2 else max 0 (cosSim sq p.1 p.2))
    (x.zip y) labels)

/-- `torch.nn.MSELoss()` (mean reduction) over two row matrices. -/
def mseLoss (x y : List (List ℚ)) : ℚ :=
  meanQ (List.zipWith (fun a b => List.zipWith (fun p q => (p - q) ^ 2) a b) x y).flatten

/-- `Cosine_MSE.forward`: reshape both arrays to `(b h w) c`, take the
cosine-embedding loss of the RAW rows against an all-ones label, plus the MSE
of both arrays min-max normalised with the TARGET's per-row min/max. -/
def Cosine_MSE.forward (sq : ℚ → ℚ) (pred target : T4 ℚ) : ℚ :=
  cosineEmbeddingLoss sq (rearrangeBCHW pred) (rearrangeBCHW target)
    (List.replicate (rearrangeBCHW target).length 1)
  + mseLoss
      (List.zipWith (fun r tr => normRow (rowMin tr) (rowMax tr) r)
        (rearrangeBCHW pred) (rearrangeBCHW target))
      ((rearrangeBCHW target).map (fun tr => normRow (rowMin tr) (rowMax tr) tr))

/-- The only loss function the `Loss` dispatcher can construct. -/
inductive LossFunc where
  | cosine_mse : LossFunc
deriving DecidableEq

/-- A successfully constructed `Loss` instance. -/
structure LossInst where
  dim : ℕ
  loss_func : LossFunc

/-- `Loss.__init__`: only the identifier `"cosine_mse"` is accepted; any other
identifier raises `NotImplementedError` at construction time (modelled as
`Except.error` carrying the message). -/
def Loss.init (loss_type : String) (dim : ℕ) : Except String LossInst :=
  if loss_type = "cosine_mse" then
    Except.ok { dim := dim, loss_func := LossFunc.cosine_mse }
  else
    Except.error ("Loss type " ++ loss_type ++ " not implemented")

/-- `Loss.__call__`: forward to the selected loss and wrap the scalar as a
single-entry mapping `{"total": loss}`. -/
def Loss.call (sq : ℚ → ℚ) (inst : LossInst) (pred target : T4 ℚ) :
    List (String × ℚ) :=
  match inst.loss_func with
  | LossFunc.cosine_mse => [("total", Cosine_MSE.forward sq pred target)]

/-- The spec's claimed gradient semantics, vertical direction: skip-2 row pairs
of the SPATIAL HEIGHT dimension (dim 2), masked by the AND of the two rows'
validity.  Stated from the spec's words for comparison with the code's
`vGradient`, which slices dim 0 instead. -/
def GradientLoss.vGradientSpatial (d m : T4 ℚ) : T4 ℚ :=
  zip4 (fun a b => a * b)
    (zip4 (fun a b => absQ (a - b))
      (d.map (fun chans => chans.map dropLast2))
      (d.map (fun chans => chans.map (List.drop 2))))
    (zip4 (fun a b => a * b)
      (m.map (fun chans => chans.map dropLast2))
      (m.map (fun chans => chans.map (List.drop 2))))

/-- The spec's claimed gradient semantics, horizontal direction: skip-2 column
pairs of the SPATIAL WIDTH dimension (dim 3). -/
def GradientLoss.hGradientSpatial (d m : T4 ℚ) : T4 ℚ :=
  zip4 (fun a b => a * b)
    (zip4 (fun a b => absQ (a - b))
      (d.map (fun chans => chans.map (fun hw => hw.map dropLast2)))
      (d.map (fun chans => chans.map (fun hw => hw.map (List.drop 2)))))
    (zip4 (fun a b => a * b)
      (m.map (fun chans => chans.map (fun hw => hw.map dropLast2)))
      (m.map (fun chans => chans.map (fun hw => hw.map (List.drop 2)))))

/-- One scale of the spec's claimed (spatial) gradient loss. -/
def GradientLoss.scaleLossSpatial (lg : ℚ → ℚ) (cfg : GradCfg) (input target : T4 ℚ) : ℚ :=
  (sum4 (GradientLoss.hGradientSpatial (GradientLoss.logDiff lg cfg input target)
          (GradientLoss.maskOf cfg target))
   + sum4 (GradientLoss.vGradientSpatial (GradientLoss.logDiff lg cfg input target)
          (GradientLoss.maskOf cfg target)))
  / GradientLoss.nVal cfg input target

/-- The spec's claimed (spatial) multi-scale gradient loss. -/
def GradientLoss.gradientlossSpatial (lg : ℚ → ℚ) (cfg : GradCfg) (input target : T4 ℚ) : ℚ :=
  (List.zipWith (GradientLoss.scaleLossSpatial lg cfg)
    (GradientLoss.downscaledList input) (GradientLoss.downscaledList target)).sum

/-- The 4 evaluation scales as the spec words them: the original array and the
3 strided subsamples at strides 2, 4, 6. -/
def GradientLoss.specScales (t : T4 ℚ) : List (T4 ℚ) :=
  [t, downscale 2 t, downscale 4 t, downscale 6 t]

/-- The count of valid target elements, as the spec words the normaliser. -/
def countValid (md : Option ℚ) (t : T4 ℚ) : ℕ :=
  ((elems4 t).filter (validB md)).length

/-- The spec's wording of the whole `GradientLoss` contract (claim C3):
`loss_weight` times the sum over the 4 scales of
`(sum(h_gradient) + sum(v_gradient)) / N`, where `N` is the valid-element
count when masking is enabled and the total element count otherwise. -/
def GradientLoss.specLoss (lg : ℚ → ℚ) (cfg : GradCfg) (input target : T4 ℚ) : ℚ :=
  cfg.loss_weight *
    (List.zipWith (fun i t =>
      (sum4 (GradientLoss.hGradient (GradientLoss.logDiff lg cfg i t)
              (GradientLoss.maskOf cfg t))
       + sum4 (GradientLoss.vGradient (GradientLoss.logDiff lg cfg i t)
              (GradientLoss.maskOf cfg t)))
      / (if cfg.valid_mask = true then (countValid cfg.max_depth t : ℚ)
         else (numel4 i : ℚ)))
      (GradientLoss.specScales input) (GradientLoss.specScales target)).sum

/-- One scale of the gradient loss with the horizontal term removed (claim
C10: for channel dimension of size at most 2 the horizontal term is an empty
sum). -/
def GradientLoss.vOnlyScale (lg : ℚ → ℚ) (cfg : GradCfg) (input target : T4 ℚ) : ℚ :=
  sum4 (GradientLoss.vGradient (GradientLoss.logDiff lg cfg input target)
          (GradientLoss.maskOf cfg target))
  / GradientLoss.nVal cfg input target

/-- The gradient loss with only the vertical terms. -/
def GradientLoss.vOnly (lg : ℚ → ℚ) (cfg : GradCfg) (input target : T4 ℚ) : ℚ :=
  (List.zipWith (GradientLoss.vOnlyScale lg cfg)
    (GradientLoss.downscaledList input) (GradientLoss.downscaledList target)).sum

/-- The elementwise vertical-gradient combination at one batch pair: rank-3
`abs(d_b - d_b2) * (m_b * m_b2)`. -/
def GradientLoss.vPairT3 (db db2 mb mb2 : T3 ℚ) : T3 ℚ :=
  List.zipWith (fun a b =>
    List.zipWith (fun c d =>
      List.zipWith (fun e g => e * g) c d) a b)
    (List.zipWith (fun a b =>
      List.zipWith (fun c d =>
        List.zipWith (fun e g => absQ (e - g)) c d) a b) db db2)
    (List.zipWith (fun a b =>
      List.zipWith (fun c d =>
        List.zipWith (fun e g => e * g) c d) a b) mb mb2)

/-- All arguments the code ever passes to `torch.log` inside
`GradientLoss.gradientloss`: every element of every downscaled input and
target tensor, offset by `eps`. -/
def GradientLoss.logArgs (input target : T4 ℚ) : List ℚ :=
  (GradientLoss.downscaledList input ++ GradientLoss.downscaledList target).flatMap
    (fun t => (elems4 t).map (fun x => x + lossEps))

/-- All arguments the code ever passes to `torch.log` inside
`SigLoss.sigloss`: both components of every selected (masked) pair, offset by
`eps`. -/
def SigLoss.logArgs (cfg : SigCfg) (input target : T4 ℚ) : List ℚ :=
  (SigLoss.sigElems cfg input target).flatMap
    (fun p => [p.1 + lossEps, p.2 + lossEps])

/-- Pack a flat list of scalars as a `(1, 1, 1, n)` tensor (the shape produced
by boolean-mask indexing, up to the leading singleton axes). -/
def packT4 (l : List ℚ) : T4 ℚ := [[[l]]]

/-! ### Helper lemmas about the list/tensor toolkit -/

theorem absQ_zero : absQ 0 = 0 := rfl

theorem absQ_eq_abs (x : ℚ) : absQ x = |x| := by
  unfold absQ
  rcases lt_or_le x 0 with h | h
  · simp [h, abs_of_neg h]
  · simp [not_lt.2 h, abs_of_nonneg h]

theorem mem_zipWith' {f : α → β → γ} {l₁ : List α} {l₂ : List β} {a : γ}
    (h : a ∈ List.zipWith f l₁ l₂) : ∃ b c, b ∈ l₁ ∧ c ∈ l₂ ∧ a = f b c := by
  induction l₁ generalizing l₂ with
  | nil => simp [List.zipWith] at h
  | cons x xs ih =>
    cases l₂ with
    | nil => simp [List.zipWith] at h
    | cons y ys =>
      simp only [List.zipWith, List.mem_cons] at h
      rcases h with h | h
      · exact ⟨x, y, List.mem_cons_self _ _, List.mem_cons_self _ _, h⟩
      · rcases ih h with ⟨b, c, hb, hc, he⟩
        exact ⟨b, c, List.mem_cons_of_mem _ hb, List.mem_cons_of_mem _ hc, he⟩

theorem zipWith_congr' {f g : α → β → γ} {l₁ : List α} {l₂ : List β}
    (h : ∀ a ∈ l₁, ∀ b ∈ l₂, f a b = g a b) :
    List.zipWith f l₁ l₂ = List.zipWith g l₁ l₂ := by
  induction l₁ generalizing l₂ with
  | nil => simp
  | cons x xs ih =>
    cases l₂ with
    | nil => simp
    | cons y ys =>
      simp only [List.zipWith]
      refine congrArg₂ _ (h x (List.mem_cons_self _ _) y (List.mem_cons_self _ _)) ?_
      exact ih (fun a ha b hb =>
        h a (List.mem_cons_of_mem _ ha) b (List.mem_cons_of_mem _ hb))

theorem mem_zip_self {l : List α} {p : α × α} (h : p ∈ l.zip l) : p.1 = p.2 := by
  have hz : l.zip l = l.map (fun a => (a, a)) := by
    have := List.zip_map' (id : α → α) (id : α → α) l
    simpa using this
  rw [hz] at h
  rcases List.mem_map.1 h with ⟨a, _, rfl⟩
  rfl

theorem zip_map_fst_snd (l : List (α × β)) :
    (l.map Prod.fst).zip (l.map Prod.snd) = l := by
  have := List.zip_map' (Prod.fst : α × β → α) (Prod.snd : α × β → β) l
  simpa using this

theorem sum_indicator_eq_filter_length (p : ℚ → Bool) (l : List ℚ) :
    (l.map (fun t => if p t then (1 : ℚ) else 0)).sum = ((l.filter p).length : ℚ) := by
  induction l with
  | nil => simp
  | cons x xs ih =>
    by_cases hx : p x
    · simp [hx, ih, List.filter_cons, add_comm]
    · simp [hx, ih, List.filter_cons]

theorem everyStep_subset {k : ℕ} {l : List α} {a : α} (h : a ∈ everyStep k l) :
    a ∈ l := by
  induction l using everyStep.induct k with
  | case1 => simp [everyStep] at h
  | case2 x xs ih =>
    rw [everyStep] at h
    rcases List.mem_cons.1 h with rfl | h
    · exact List.mem_cons_self _ _
    · exact List.mem_cons_of_mem _ (List.mem_of_mem_drop (ih h))

theorem mem_flatMap_mono {l₁ l₂ : List α} {f : α → List β} {a : β}
    (hsub : ∀ x ∈ l₁, x ∈ l₂) (h : a ∈ l₁.flatMap f) : a ∈ l₂.flatMap f := by
  rcases List.mem_flatMap.1 h with ⟨x, hx, ha⟩
  exact List.mem_flatMap.2 ⟨x, hsub x hx, ha⟩

theorem mem_elems4_of_parts {t : T4 α} {chans : T3 α} {hw : List (List α)}
    {r : List α} {a : α} (h1 : chans ∈ t) (h2 : hw ∈ chans) (h3 : r ∈ hw)
    (h4 : a ∈ r) : a ∈ elems4 t := by
  unfold elems4 elems3 elems2
  exact List.mem_flatMap.2 ⟨chans, h1,
    List.mem_flatMap.2 ⟨hw, h2, List.mem_flatMap.2 ⟨r, h3, h4⟩⟩⟩

theorem mem_elems4_cases {t : T4 α} {a : α} (h : a ∈ elems4 t) :
    ∃ chans ∈ t, ∃ hw ∈ chans, ∃ r ∈ hw, a ∈ r := by
  unfold elems4 elems3 elems2 at h
  rcases List.mem_flatMap.1 h with ⟨chans, hc, h⟩
  rcases List.mem_flatMap.1 h with ⟨hw, hh, h⟩
  rcases List.mem_flatMap.1 h with ⟨r, hr, h⟩
  exact ⟨chans, hc, hw, hh, r, hr, h⟩

theorem elems4_map4 (f : α → β) (t : T4 α) :
    elems4 (map4 f t) = (elems4 t).map f := by
  unfold elems4 elems3 elems2 map4
  induction t with
  | nil => simp
  | cons chans rest ih =>
    simp only [List.map_cons, List.flatMap_cons, List.map_append, ih]
    congr 1
    induction chans with
    | nil => simp
    | cons hw hrest ih2 =>
      simp only [List.map_cons, List.flatMap_cons, List.map_append, ih2]
      congr 1
      induction hw with
      | nil => simp
      | cons r rrest ih3 => simp [ih3]

theorem mem_elems4_zip4 {f : α → β → γ} {x : T4 α} {y : T4 β} {a : γ}
    (h : a ∈ elems4 (zip4 f x y)) :
    ∃ b c, b ∈ elems4 x ∧ c ∈ elems4 y ∧ a = f b c := by
  rcases mem_elems4_cases h with ⟨chans, hc, hw, hh, r, hr, ha⟩
  unfold zip4 at hc
  rcases mem_zipWith' hc with ⟨cx, cy, hcx, hcy, rfl⟩
  rcases mem_zipWith' hh with ⟨wx, wy, hwx, hwy, rfl⟩
  rcases mem_zipWith' hr with ⟨rx, ry, hrx, hry, rfl⟩
  rcases mem_zipWith' ha with ⟨b, c, hb, hcm, rfl⟩
  exact ⟨b, c, mem_elems4_of_parts hcx hwx hrx hb,
    mem_elems4_of_parts hcy hwy hry hcm, rfl⟩

theorem map4_congr {f g : α → β} {t : T4 α}
    (h : ∀ a ∈ elems4 t, f a = g a) : map4 f t = map4 g t := by
  unfold map4
  refine List.map_congr_left (fun chans hc => ?_)
  refine List.map_congr_left (fun hw hh => ?_)
  refine List.map_congr_left (fun r hr => ?_)
  refine List.map_congr_left (fun a ha => ?_)
  exact h a (mem_elems4_of_parts hc hh hr ha)

theorem elems4_downscale_subset {k : ℕ} {t : T4 α} {a : α}
    (h : a ∈ elems4 (downscale k t)) : a ∈ elems4 t := by
  rcases mem_elems4_cases h with ⟨chans, hc, hw, hh, r, hr, ha⟩
  unfold downscale at hc
  rcases List.mem_map.1 hc with ⟨chans0, hc0, rfl⟩
  rcases List.mem_map.1 hh with ⟨hw0, hh0, rfl⟩
  rcases List.mem_map.1 hr with ⟨r0, hr0, rfl⟩
  exact mem_elems4_of_parts hc0 hh0 (everyStep_subset hr0) (everyStep_subset ha)

theorem elems4_dropLast2_subset {t : T4 α} {a : α}
    (h : a ∈ elems4 (dropLast2 t)) : a ∈ elems4 t := by
  unfold elems4 at h ⊢
  unfold dropLast2 at h
  exact mem_flatMap_mono (fun x hx => List.mem_of_mem_take hx) h

theorem elems4_drop2_subset {t : T4 α} {a : α}
    (h : a ∈ elems4 (t.drop 2)) : a ∈ elems4 t := by
  unfold elems4 at h ⊢
  exact mem_flatMap_mono (fun x hx => List.mem_of_mem_drop hx) h

theorem elems4_map_dropLast2_subset {t : T4 α} {a : α}
    (h : a ∈ elems4 (t.map dropLast2)) : a ∈ elems4 t := by
  rcases mem_elems4_cases h with ⟨chans, hc, hw, hh, r, hr, ha⟩
  rcases List.mem_map.1 hc with ⟨chans0, hc0, rfl⟩
  exact mem_elems4_of_parts hc0 (List.mem_of_mem_take hh) hr ha

theorem elems4_map_drop2_subset {t : T4 α} {a : α}
    (h : a ∈ elems4 (t.map (List.drop 2))) : a ∈ elems4 t := by
  rcases mem_elems4_cases h with ⟨chans, hc, hw, hh, r, hr, ha⟩
  rcases List.mem_map.1 hc with ⟨chans0, hc0, rfl⟩
  exact mem_elems4_of_parts hc0 (List.mem_of_mem_drop hh) hr ha

theorem sum4_eq_zero {t : T4 ℚ} (h : ∀ a ∈ elems4 t, a = 0) : sum4 t = 0 :=
  List.sum_eq_zero h

/-! ### SigLoss state-machine lemmas -/

theorem sigloss_counter (lg sq : ℚ → ℚ) (cfg : SigCfg) (c : ℕ) (input target : T4 ℚ) :
    (SigLoss.sigloss lg sq cfg c input target).2 =
      if cfg.warm_up = true ∧ c < cfg.warm_iter then c + 1 else c := by
  by_cases h : cfg.warm_up = true ∧ c < cfg.warm_iter
  · simp [SigLoss.sigloss, h]
  · simp [SigLoss.sigloss, h]

theorem sigloss_val_warm {lg sq : ℚ → ℚ} {cfg : SigCfg} {c : ℕ} {input target : T4 ℚ}
    (h : cfg.warm_up = true ∧ c < cfg.warm_iter) :
    (SigLoss.sigloss lg sq cfg c input target).1 =
      sq ((3/20) * meanQ (SigLoss.gList lg cfg input target) ^ 2) := by
  simp [SigLoss.sigloss, h]

theorem sigloss_val_full {lg sq : ℚ → ℚ} {cfg : SigCfg} {c : ℕ} {input target : T4 ℚ}
    (h : ¬(cfg.warm_up = true ∧ c < cfg.warm_iter)) :
    (SigLoss.sigloss lg sq cfg c input target).1 =
      sq (varQ (SigLoss.gList lg cfg input target)
          + (3/20) * meanQ (SigLoss.gList lg cfg input target) ^ 2) := by
  simp [SigLoss.sigloss, h]

theorem forward_counter (lg sq : ℚ → ℚ) (cfg : SigCfg) (c : ℕ) (input target : T4 ℚ) :
    (SigLoss.forward lg sq cfg c input target).2 =
      if cfg.warm_up = true ∧ c < cfg.warm_iter then c + 1 else c := by
  simp [SigLoss.forward, sigloss_counter]

theorem runCounter_min {lg sq : ℚ → ℚ} {cfg : SigCfg} (hw : cfg.warm_up = true) :
    ∀ (calls : List (T4 ℚ × T4 ℚ)) (c : ℕ), c ≤ cfg.warm_iter →
      SigLoss.runCounter lg sq cfg c calls = min (c + calls.length) cfg.warm_iter := by
  intro calls
  induction calls with
  | nil => intro c hc; simp [SigLoss.runCounter, Nat.min_eq_left hc]
  | cons p rest ih =>
    intro c hc
    show SigLoss.runCounter lg sq cfg (SigLoss.forward lg sq cfg c p.1 p.2).2 rest =
      min (c + (rest.length + 1)) cfg.warm_iter
    rw [forward_counter]
    by_cases hlt : c < cfg.warm_iter
    · rw [if_pos ⟨hw, hlt⟩, ih (c + 1) hlt]
      omega
    · rw [if_neg (fun h => hlt h.2), ih c hc]
      omega

theorem runCounter_le {lg sq : ℚ → ℚ} {cfg : SigCfg} :
    ∀ (calls : List (T4 ℚ × T4 ℚ)) (c : ℕ), c ≤ cfg.warm_iter →
      SigLoss.runCounter lg sq cfg c calls ≤ cfg.warm_iter := by
  intro calls
  induction calls with
  | nil => intro c hc; exact hc
  | cons p rest ih =>
    intro c hc
    show SigLoss.runCounter lg sq cfg (SigLoss.forward lg sq cfg c p.1 p.2).2 rest ≤ _
    rw [forward_counter]
    by_cases hlt : cfg.warm_up = true ∧ c < cfg.warm_iter
    · rw [if_pos hlt]; exact ih _ hlt.2
    · rw [if_neg hlt]; exact ih _ hc

theorem runCounter_nowarm {lg sq : ℚ → ℚ} {cfg : SigCfg} (hw : cfg.warm_up = false) :
    ∀ (calls : List (T4 ℚ × T4 ℚ)) (c : ℕ),
      SigLoss.runCounter lg sq cfg c calls = c := by
  intro calls
  induction calls with
  | nil => intro c; rfl
  | cons p rest ih =>
    intro c
    show SigLoss.runCounter lg sq cfg (SigLoss.forward lg sq cfg c p.1 p.2).2 rest = c
    rw [forward_counter, if_neg (by simp [hw]), ih]

theorem run_getD {lg sq : ℚ → ℚ} {cfg : SigCfg} :
    ∀ (calls : List (T4 ℚ × T4 ℚ)) (c i : ℕ), i < calls.length →
      (SigLoss.run lg sq cfg c calls).getD i 0 =
        (SigLoss.forward lg sq cfg (SigLoss.runCounter lg sq cfg c (calls.take i))
          (calls.getD i ([], [])).1 (calls.getD i ([], [])).2).1 := by
  intro calls
  induction calls with
  | nil => intro c i hi; simp at hi
  | cons p rest ih =>
    intro c i hi
    cases i with
    | zero => rfl
    | succ j =>
      show (SigLoss.run lg sq cfg (SigLoss.forward lg sq cfg c p.1 p.2).2 rest).getD j 0 = _
      rw [ih _ j (by simpa using hi)]
      rfl

/-! ### GradientLoss structure lemmas -/

theorem map4_map4 (f : β → γ) (g : α → β) (t : T4 α) :
    map4 f (map4 g t) = map4 (fun a => f (g a)) t := by
  simp [map4, List.map_map, Function.comp]

theorem zip4_self (f : α → α → β) (t : T4 α) :
    zip4 f t t = map4 (fun a => f a a) t := by
  unfold zip4 map4
  rw [List.zipWith_same]
  refine List.map_congr_left (fun a _ => ?_)
  rw [List.zipWith_same]
  refine List.map_congr_left (fun b _ => ?_)
  rw [List.zipWith_same]
  refine List.map_congr_left (fun c _ => ?_)
  rw [List.zipWith_same]

theorem logDiff_self_zero (lg : ℚ → ℚ) (cfg : GradCfg) (t : T4 ℚ) :
    ∀ a ∈ elems4 (GradientLoss.logDiff lg cfg t t), a = 0 := by
  intro a ha
  unfold GradientLoss.logDiff at ha
  rcases mem_elems4_zip4 ha with ⟨b, c, hb, _, rfl⟩
  rw [zip4_self, map4_map4] at hb
  have : map4 (fun a => lg (a + lossEps) - lg (a + lossEps)) t =
      map4 (fun _ => (0 : ℚ)) t := map4_congr (fun a _ => sub_self _)
  rw [this, elems4_map4] at hb
  rcases List.mem_map.1 hb with ⟨_, _, rfl⟩
  exact zero_mul c

theorem vGradient_elems_zero {d m : T4 ℚ} (hd : ∀ a ∈ elems4 d, a = 0) :
    ∀ a ∈ elems4 (GradientLoss.vGradient d m), a = 0 := by
  intro a ha
  unfold GradientLoss.vGradient at ha
  rcases mem_elems4_zip4 ha with ⟨b, c, hb, _, rfl⟩
  rcases mem_elems4_zip4 hb with ⟨p, q, hp, hq, rfl⟩
  rw [hd p (elems4_dropLast2_subset hp), hd q (elems4_drop2_subset hq)]
  simp [absQ_zero]

theorem hGradient_elems_zero {d m : T4 ℚ} (hd : ∀ a ∈ elems4 d, a = 0) :
    ∀ a ∈ elems4 (GradientLoss.hGradient d m), a = 0 := by
  intro a ha
  unfold GradientLoss.hGradient at ha
  rcases mem_elems4_zip4 ha with ⟨b, c, hb, _, rfl⟩
  rcases mem_elems4_zip4 hb with ⟨p, q, hp, hq, rfl⟩
  rw [hd p (elems4_map_dropLast2_subset hp), hd q (elems4_map_drop2_subset hq)]
  simp [absQ_zero]

theorem scaleLoss_self_zero (lg : ℚ → ℚ) (cfg : GradCfg) (t : T4 ℚ) :
    GradientLoss.scaleLoss lg cfg t t = 0 := by
  unfold GradientLoss.scaleLoss
  rw [sum4_eq_zero (hGradient_elems_zero (logDiff_self_zero lg cfg t)),
    sum4_eq_zero (vGradient_elems_zero (logDiff_self_zero lg cfg t))]
  simp

theorem gradientloss_self_zero (lg : ℚ → ℚ) (cfg : GradCfg) (t : T4 ℚ) :
    GradientLoss.gradientloss lg cfg t t = 0 := by
  unfold GradientLoss.gradientloss
  rw [List.zipWith_same]
  refine List.sum_eq_zero (fun x hx => ?_)
  rcases List.mem_map.1 hx with ⟨s, _, rfl⟩
  exact scaleLoss_self_zero lg cfg s

theorem logDiff_chanlen {lg : ℚ → ℚ} {cfg : GradCfg} {input target : T4 ℚ}
    (hin : ∀ chans ∈ input, List.length chans ≤ 2) :
    ∀ e ∈ GradientLoss.logDiff lg cfg input target, List.length e ≤ 2 := by
  intro e he
  unfold GradientLoss.logDiff zip4 at he
  rcases mem_zipWith' he with ⟨a, b, ha, _, rfl⟩
  rcases mem_zipWith' ha with ⟨u, v, hu, _, rfl⟩
  unfold map4 at hu
  rcases List.mem_map.1 hu with ⟨chans, hc, rfl⟩
  rw [List.length_zipWith, List.length_zipWith, List.length_map]
  have := hin chans hc
  omega

theorem hGradient_sum_zero {d m : T4 ℚ}
    (hd : ∀ e ∈ d, List.length e ≤ 2) :
    sum4 (GradientLoss.hGradient d m) = 0 := by
  refine sum4_eq_zero (fun a ha => ?_)
  exfalso
  rcases mem_elems4_cases ha with ⟨chans, hc, hw, hh, _, _, _⟩
  unfold GradientLoss.hGradient zip4 at hc
  rcases mem_zipWith' hc with ⟨x, y, hx, _, rfl⟩
  rcases mem_zipWith' hx with ⟨p, q, hp, _, rfl⟩
  rcases List.mem_map.1 hp with ⟨e, he, rfl⟩
  have : dropLast2 e = [] := by
    unfold dropLast2
    have := hd e he
    have h0 : List.length e - 2 = 0 := by omega
    rw [h0, List.take_zero]
  rw [this] at hh
  simp at hh

theorem downscale_chanlen {k : ℕ} {t : T4 α}
    (h : ∀ chans ∈ t, List.length chans ≤ 2) :
    ∀ chans ∈ downscale k t, List.length chans ≤ 2 := by
  intro chans hc
  unfold downscale at hc
  rcases List.mem_map.1 hc with ⟨chans0, hc0, rfl⟩
  simpa using h chans0 hc0

theorem downscaledList_chanlen {t : T4 ℚ}
    (h : ∀ chans ∈ t, List.length chans ≤ 2) :
    ∀ t' ∈ GradientLoss.downscaledList t, ∀ chans ∈ t', List.length chans ≤ 2 := by
  intro t' ht'
  unfold GradientLoss.downscaledList at ht'
  simp only [List.cons_append, List.nil_append, List.map_cons, List.map_nil,
    List.mem_cons, List.not_mem_nil, or_false] at ht'
  rcases ht' with rfl | rfl | rfl | rfl
  · exact h
  · exact downscale_chanlen h
  · exact downscale_chanlen h
  · exact downscale_chanlen h

theorem downscaledList_elems_subset {t : T4 ℚ} {t' : T4 ℚ}
    (ht' : t' ∈ GradientLoss.downscaledList t) {a : ℚ} (ha : a ∈ elems4 t') :
    a ∈ elems4 t := by
  unfold GradientLoss.downscaledList at ht'
  simp only [List.cons_append, List.nil_append, List.map_cons, List.map_nil,
    List.mem_cons, List.not_mem_nil, or_false] at ht'
  rcases ht' with rfl | rfl | rfl | rfl
  · exact ha
  · exact elems4_downscale_subset ha
  · exact elems4_downscale_subset ha
  · exact elems4_downscale_subset ha

theorem gradientloss_eq_vOnly {lg : ℚ → ℚ} {cfg : GradCfg} {input target : T4 ℚ}
    (hin : ∀ chans ∈ input, List.length chans ≤ 2) :
    GradientLoss.gradientloss lg cfg input target =
      GradientLoss.vOnly lg cfg input target := by
  unfold GradientLoss.gradientloss GradientLoss.vOnly
  refine congrArg List.sum (zipWith_congr' (fun i' hi' t' ht' => ?_))
  unfold GradientLoss.scaleLoss GradientLoss.vOnlyScale
  rw [hGradient_sum_zero (logDiff_chanlen (downscaledList_chanlen hin i' hi'))]
  rw [zero_add]

theorem vGradient_getD (d m : T4 ℚ) (b : ℕ)
    (hb : b + 2 < d.length) (hm : b + 2 < m.length) :
    (GradientLoss.vGradient d m).getD b [] =
      GradientLoss.vPairT3 (d.getD b []) (d.getD (b + 2) [])
        (m.getD b []) (m.getD (b + 2) []) := by
  have hlen1 : List.length (dropLast2 d) = d.length - 2 := by
    unfold dropLast2; rw [List.length_take]; omega
  have hlen2 : List.length (d.drop 2) = d.length - 2 := by
    rw [List.length_drop]
  have hlen3 : List.length (dropLast2 m) = m.length - 2 := by
    unfold dropLast2; rw [List.length_take]; omega
  have hlen4 : List.length (m.drop 2) = m.length - 2 := by
    rw [List.length_drop]
  have hbv : b < (GradientLoss.vGradient d m).length := by
    unfold GradientLoss.vGradient zip4
    rw [List.length_zipWith, List.length_zipWith, List.length_zipWith,
      hlen1, hlen2, hlen3, hlen4]
    omega
  rw [List.getD_eq_getElem _ _ hbv]
  rw [List.getD_eq_getElem _ _ (show b < d.length by omega),
    List.getD_eq_getElem _ _ (show b + 2 < d.length by omega),
    List.getD_eq_getElem _ _ (show b < m.length by omega),
    List.getD_eq_getElem _ _ (show b + 2 < m.length by omega)]
  unfold GradientLoss.vGradient zip4
  rw [List.getElem_zipWith, List.getElem_zipWith, List.getElem_zipWith]
  unfold dropLast2
  rw [List.getElem_take, List.getElem_take, List.getElem_drop, List.getElem_drop]
  have hc1 : (2 + b) = (b + 2) := by omega
  unfold GradientLoss.vPairT3
  congr 2 <;> simp [hc1]

/-! ### Log-argument and congruence lemmas (claim C8) -/

theorem lossEps_pos : (0 : ℚ) < lossEps := by norm_num [lossEps]

theorem logDiff_congr {lg₁ lg₂ : ℚ → ℚ} {cfg : GradCfg} {input target : T4 ℚ}
    (hfun : ∀ x : ℚ, 0 < x → lg₁ x = lg₂ x)
    (hi : ∀ a ∈ elems4 input, 0 ≤ a) (ht : ∀ a ∈ elems4 target, 0 ≤ a) :
    GradientLoss.logDiff lg₁ cfg input target =
      GradientLoss.logDiff lg₂ cfg input target := by
  unfold GradientLoss.logDiff
  rw [map4_congr (fun a ha => hfun (a + lossEps)
      (by have := hi a ha; have := lossEps_pos; linarith))]
  rw [map4_congr (fun a ha => hfun (a + lossEps)
      (by have := ht a ha; have := lossEps_pos; linarith))]

theorem scaleLoss_congr {lg₁ lg₂ : ℚ → ℚ} {cfg : GradCfg} {input target : T4 ℚ}
    (hfun : ∀ x : ℚ, 0 < x → lg₁ x = lg₂ x)
    (hi : ∀ a ∈ elems4 input, 0 ≤ a) (ht : ∀ a ∈ elems4 target, 0 ≤ a) :
    GradientLoss.scaleLoss lg₁ cfg input target =
      GradientLoss.scaleLoss lg₂ cfg input target := by
  unfold GradientLoss.scaleLoss
  rw [logDiff_congr hfun hi ht]

theorem gradientloss_congr {lg₁ lg₂ : ℚ → ℚ} {cfg : GradCfg} {input target : T4 ℚ}
    (hfun : ∀ x : ℚ, 0 < x → lg₁ x = lg₂ x)
    (hi : ∀ a ∈ elems4 input, 0 ≤ a) (ht : ∀ a ∈ elems4 target, 0 ≤ a) :
    GradientLoss.gradientloss lg₁ cfg input target =
      GradientLoss.gradientloss lg₂ cfg input target := by
  unfold GradientLoss.gradientloss
  refine congrArg List.sum (zipWith_congr' (fun i' hi' t' ht' => ?_))
  exact scaleLoss_congr hfun
    (fun a ha => hi a (downscaledList_elems_subset hi' ha))
    (fun a ha => ht a (downscaledList_elems_subset ht' ha))

theorem sigElems_mem_parts {cfg : SigCfg} {input target : T4 ℚ} {p : ℚ × ℚ}
    (hp : p ∈ SigLoss.sigElems cfg input target) :
    p.1 ∈ elems4 input ∧ p.2 ∈ elems4 target := by
  unfold SigLoss.sigElems at hp
  by_cases hv : cfg.valid_mask = true
  · simp only [hv, if_true] at hp
    obtain ⟨p1, p2⟩ := p
    exact List.of_mem_zip (List.mem_of_mem_filter hp)
  · simp only [hv, if_false] at hp
    obtain ⟨p1, p2⟩ := p
    exact List.of_mem_zip hp

theorem gList_congr {lg₁ lg₂ : ℚ → ℚ} {cfg : SigCfg} {input target : T4 ℚ}
    (hfun : ∀ x : ℚ, 0 < x → lg₁ x = lg₂ x)
    (hi : ∀ a ∈ elems4 input, 0 ≤ a) (ht : ∀ a ∈ elems4 target, 0 ≤ a) :
    SigLoss.gList lg₁ cfg input target = SigLoss.gList lg₂ cfg input target := by
  unfold SigLoss.gList
  refine List.map_congr_left (fun p hp => ?_)
  rcases sigElems_mem_parts hp with ⟨h1, h2⟩
  rw [hfun (p.1 + lossEps) (by have := hi _ h1; have := lossEps_pos; linarith),
    hfun (p.2 + lossEps) (by have := ht _ h2; have := lossEps_pos; linarith)]

theorem sigloss_congr {lg₁ lg₂ sq : ℚ → ℚ} {cfg : SigCfg} {c : ℕ} {input target : T4 ℚ}
    (hfun : ∀ x : ℚ, 0 < x → lg₁ x = lg₂ x)
    (hi : ∀ a ∈ elems4 input, 0 ≤ a) (ht : ∀ a ∈ elems4 target, 0 ≤ a) :
    SigLoss.sigloss lg₁ sq cfg c input target =
      SigLoss.sigloss lg₂ sq cfg c input target := by
  unfold SigLoss.sigloss
  rw [gList_congr hfun hi ht]

/-! ### Normaliser / spec-scale lemmas (claim C3) -/

theorem nVal_eq_spec (cfg : GradCfg) (input target : T4 ℚ) :
    GradientLoss.nVal cfg input target =
      if cfg.valid_mask = true then (countValid cfg.max_depth target : ℚ)
      else (numel4 input : ℚ) := by
  unfold GradientLoss.nVal GradientLoss.maskOf countValid
  by_cases hv : cfg.valid_mask = true
  · simp only [hv, if_true]
    rw [sum4, elems4_map4]
    exact sum_indicator_eq_filter_length (validB cfg.max_depth) (elems4 target)
  · simp [hv]

theorem downscaledList_eq_specScales (t : T4 ℚ) :
    GradientLoss.downscaledList t = GradientLoss.specScales t := by
  unfold GradientLoss.downscaledList GradientLoss.specScales
  norm_num

/-! ### Claim theorems -/

/-- C1: the spec claims `GradientLoss.gradientloss` computes the vertical
gradient over skip-2 row pairs of the SPATIAL HEIGHT dimension and the
horizontal gradient over skip-2 column pairs of the SPATIAL WIDTH dimension.
The code instead slices dims 0 and 1 (batch, channel) of the 4-D tensor:
`log_d_diff[0:-2, :]` / `log_d_diff[:, 0:-2]`.  At the concrete input below
(batch 1, channel 1, a 3×3 depth map varying along height, all-ones target,
`log` modelled by the identity) the code produces 0 — both batch and channel
slices are empty — while the claimed spatial formula produces 4/3. -/
theorem c1_gradient_slices_batch_channel_not_spatial :
    GradientLoss.gradientloss (fun x => x) ⟨true, 1, none⟩
        [[[[1, 1, 1], [2, 2, 2], [5, 5, 5]]]] [[[[1, 1, 1], [1, 1, 1], [1, 1, 1]]]] = 0
    ∧ GradientLoss.gradientlossSpatial (fun x => x) ⟨true, 1, none⟩
        [[[[1, 1, 1], [2, 2, 2], [5, 5, 5]]]] [[[[1, 1, 1], [1, 1, 1], [1, 1, 1]]]] = 4/3
    ∧ GradientLoss.gradientloss (fun x => x) ⟨true, 1, none⟩
        [[[[1, 1, 1], [2, 2, 2], [5, 5, 5]]]] [[[[1, 1, 1], [1, 1, 1], [1, 1, 1]]]]
      ≠ GradientLoss.gradientlossSpatial (fun x => x) ⟨true, 1, none⟩
        [[[[1, 1, 1], [2, 2, 2], [5, 5, 5]]]] [[[[1, 1, 1], [1, 1, 1], [1, 1, 1]]]] := by
  refine ⟨?_, ?_, ?_⟩ <;>
    norm_num [GradientLoss.gradientloss, GradientLoss.gradientlossSpatial,
      GradientLoss.downscaledList, GradientLoss.scaleLoss, GradientLoss.scaleLossSpatial,
      GradientLoss.hGradient, GradientLoss.vGradient, GradientLoss.hGradientSpatial,
      GradientLoss.vGradientSpatial, GradientLoss.logDiff, GradientLoss.maskOf,
      GradientLoss.nVal, downscale, everyStep, dropLast2, map4, zip4, sum4, elems4,
      elems3, elems2, numel4, validB, absQ, lossEps, List.range_succ]

/-- C3: `GradientLoss.forward` equals the spec's wording of the contract: the
per-scale loss is evaluated on exactly 4 arrays (the original and the strided
subsamples at strides 2, 4, 6), each scale contributes
`(sum(h_gradient) + sum(v_gradient)) / N` with `N` the valid-target count when
masking is enabled and the total element count otherwise, and the result is
`loss_weight` times the sum over the 4 scales. -/
theorem c3_gradientloss_contract (lg : ℚ → ℚ) (cfg : GradCfg) (pred target : T4 ℚ) :
    GradientLoss.forward lg cfg pred target =
      GradientLoss.specLoss lg cfg pred target := by
  unfold GradientLoss.forward GradientLoss.specLoss GradientLoss.gradientloss
  rw [downscaledList_eq_specScales, downscaledList_eq_specScales]
  congr 1
  refine congrArg List.sum (zipWith_congr' (fun i' hi' t' ht' => ?_))
  unfold GradientLoss.scaleLoss
  rw [nVal_eq_spec]

/-- C4: constructing `Loss` with any identifier other than `"cosine_mse"`
fails at construction time with the "not implemented" error; `Loss("cosine_mse")`
succeeds, and calling it returns a mapping with exactly the single key
`"total"` holding the `Cosine_MSE` scalar. -/
theorem c4_loss_dispatcher (s : String) (d : ℕ) (hs : s ≠ "cosine_mse")
    (sq : ℚ → ℚ) (pred target : T4 ℚ) :
    Loss.init s d = Except.error ("Loss type " ++ s ++ " not implemented")
    ∧ Loss.init "cosine_mse" d = Except.ok ⟨d, LossFunc.cosine_mse⟩
    ∧ Loss.call sq ⟨d, LossFunc.cosine_mse⟩ pred target
        = [("total", Cosine_MSE.forward sq pred target)]
    ∧ (Loss.call sq ⟨d, LossFunc.cosine_mse⟩ pred target).map Prod.fst = ["total"] := by
  refine ⟨?_, ?_, rfl, rfl⟩
  · simp [Loss.init, hs]
  · simp [Loss.init]

/-- Witness for C4 at the concrete rejected identifier `"unknown_type"`. -/
theorem c4_loss_dispatcher_witness :
    Loss.init "unknown_type" 384 =
      Except.error ("Loss type " ++ "unknown_type" ++ " not implemented") :=
  (c4_loss_dispatcher "unknown_type" 384 (by decide) (fun x => x) [] []).1

/-- C2: for a `SigLoss` with `warm_up = True` and `warm_iter = N ≥ 1`, starting
from counter 0, the `i`-th forward call (0-based `i`, so calls 1..N are
`i < N`) returns `loss_weight * sqrt(0.15 * mean(g)^2)` and every later call
returns `loss_weight * sqrt(var(g) + 0.15 * mean(g)^2)`, where `g` is the
log-difference list of that call's (masked) inputs; and the counter after any
prefix of calls is monotone in the prefix length. -/
theorem c2_sigloss_warmup (lg sq : ℚ → ℚ) (cfg : SigCfg) (hwu : cfg.warm_up = true)
    (hN : 1 ≤ cfg.warm_iter) (calls : List (T4 ℚ × T4 ℚ)) (i : ℕ)
    (hi : i < calls.length) :
    (SigLoss.run lg sq cfg 0 calls).getD i 0 =
      (if i < cfg.warm_iter then
        cfg.loss_weight * sq ((3/20) *
          meanQ (SigLoss.gList lg cfg (calls.getD i ([], [])).1 (calls.getD i ([], [])).2) ^ 2)
      else
        cfg.loss_weight * sq (
          varQ (SigLoss.gList lg cfg (calls.getD i ([], [])).1 (calls.getD i ([], [])).2)
          + (3/20) *
            meanQ (SigLoss.gList lg cfg (calls.getD i ([], [])).1 (calls.getD i ([], [])).2) ^ 2))
    ∧ (∀ k₁ k₂ : ℕ, k₁ ≤ k₂ →
        SigLoss.runCounter lg sq cfg 0 (calls.take k₁) ≤
          SigLoss.runCounter lg sq cfg 0 (calls.take k₂)) := by
  constructor
  · rw [run_getD calls 0 i hi]
    have hctr : SigLoss.runCounter lg sq cfg 0 (calls.take i) = min i cfg.warm_iter := by
      rw [runCounter_min hwu _ 0 (Nat.zero_le _)]
      rw [List.length_take]
      have : min i calls.length = i := Nat.min_eq_left (Nat.le_of_lt hi)
      omega
    rw [hctr]
    by_cases hiN : i < cfg.warm_iter
    · rw [if_pos hiN]
      unfold SigLoss.forward
      rw [sigloss_val_warm ⟨hwu, by omega⟩]
    · rw [if_neg hiN]
      unfold SigLoss.forward
      rw [sigloss_val_full (fun hc => by omega)]
  · intro k₁ k₂ hk
    rw [runCounter_min hwu _ 0 (Nat.zero_le _), runCounter_min hwu _ 0 (Nat.zero_le _)]
    rw [List.length_take, List.length_take]
    omega

/-- Witness for C2: two identical calls with `warm_iter = 1`; the first call
takes the warm-up branch, whose value under the constant-5 square root is 5. -/
theorem c2_sigloss_warmup_witness :
    (SigLoss.run (fun x => x) (fun _ => 5) ⟨true, 1, none, true, 1⟩ 0
        [([[[[1, 2]]]], [[[[1, 2]]]]), ([[[[1, 2]]]], [[[[1, 2]]]])]).getD 0 0 = 5 := by
  have h := (c2_sigloss_warmup (fun x => x) (fun _ => 5) ⟨true, 1, none, true, 1⟩ rfl
    (by norm_num) [([[[[1, 2]]]], [[[[1, 2]]]]), ([[[[1, 2]]]], [[[[1, 2]]]])] 0
    (by norm_num)).1
  rw [h]
  norm_num

/-- C9: the warm-up counter starts at 0 (modelled by running from 0); a single
call maps counter `c` to `c + 1` exactly when `warm_up` is set and
`c < warm_iter`, and to `c` unchanged otherwise (so it is never reset or
decremented); the counter after any prefix of calls started from 0 stays at
most `warm_iter`; and with `warm_up = False` it stays 0 forever. -/
theorem c9_counter_invariant (lg sq : ℚ → ℚ) (cfg : SigCfg) :
    (∀ (c : ℕ) (input target : T4 ℚ),
      (SigLoss.sigloss lg sq cfg c input target).2 =
        if cfg.warm_up = true ∧ c < cfg.warm_iter then c + 1 else c)
    ∧ (∀ (calls : List (T4 ℚ × T4 ℚ)) (k : ℕ),
        SigLoss.runCounter lg sq cfg 0 (calls.take k) ≤ cfg.warm_iter)
    ∧ (cfg.warm_up = false →
        ∀ calls : List (T4 ℚ × T4 ℚ), SigLoss.runCounter lg sq cfg 0 calls = 0) := by
  refine ⟨fun c input target => sigloss_counter lg sq cfg c input target,
    fun calls k => runCounter_le _ 0 (Nat.zero_le _),
    fun hw calls => runCounter_nowarm hw calls 0⟩

/-- Witness for C9: one warm-up call with counter 0 and `warm_iter = 5`
increments the counter to 1. -/
theorem c9_counter_invariant_witness :
    (SigLoss.sigloss (fun x => x) (fun x => x) ⟨true, 1, none, true, 5⟩ 0 [] []).2 = 1 := by
  have h := (c9_counter_invariant (fun x => x) (fun x => x) ⟨true, 1, none, true, 5⟩).1 0 [] []
  rw [h]
  norm_num

/-- C10: when every channel list of the input has size at most 2 (including
the channels = 1 depth-map case), the horizontal-gradient term of
`GradientLoss.gradientloss` is a sum over an empty slice at every scale, so
the loss equals its vertical-only part; and the vertical-gradient tensor pairs
entries at batch indices `b` and `b + 2` of the first dimension. -/
theorem c10_gradient_axes (lg : ℚ → ℚ) (cfg : GradCfg) (input target : T4 ℚ)
    (hin : ∀ chans ∈ input, List.length chans ≤ 2) :
    GradientLoss.gradientloss lg cfg input target =
      GradientLoss.vOnly lg cfg input target
    ∧ (∀ (d m : T4 ℚ) (b : ℕ), b + 2 < d.length → b + 2 < m.length →
        (GradientLoss.vGradient d m).getD b [] =
          GradientLoss.vPairT3 (d.getD b []) (d.getD (b + 2) [])
            (m.getD b []) (m.getD (b + 2) [])) :=
  ⟨gradientloss_eq_vOnly hin, fun d m b hb hm => vGradient_getD d m b hb hm⟩

/-- Witness for C10 at a concrete single-channel input. -/
theorem c10_gradient_axes_witness :
    GradientLoss.gradientloss (fun x => x) ⟨true, 1, none⟩
        [[[[1, 2], [3, 4]]]] [[[[1, 2], [3, 4]]]] =
      GradientLoss.vOnly (fun x => x) ⟨true, 1, none⟩
        [[[[1, 2], [3, 4]]]] [[[[1, 2], [3, 4]]]] :=
  (c10_gradient_axes (fun x => x) ⟨true, 1, none⟩
    [[[[1, 2], [3, 4]]]] [[[[1, 2], [3, 4]]]] (by decide)).1

theorem elems4_packT4 (l : List ℚ) : elems4 (packT4 l) = l := by
  simp [packT4, elems4, elems3, elems2]

theorem meanQ_zero {l : List ℚ} (h : ∀ x ∈ l, x = 0) : meanQ l = 0 := by
  rw [meanQ, List.sum_eq_zero h, zero_div]

theorem varQ_zero {l : List ℚ} (h : ∀ x ∈ l, x = 0) : varQ l = 0 := by
  rw [varQ, List.sum_eq_zero, zero_div]
  intro y hy
  rcases List.mem_map.1 hy with ⟨x, hx, rfl⟩
  rw [h x hx, meanQ_zero h]
  norm_num

theorem sigElems_self {cfg : SigCfg} {t : T4 ℚ} {p : ℚ × ℚ}
    (hp : p ∈ SigLoss.sigElems cfg t t) : p.1 = p.2 := by
  unfold SigLoss.sigElems at hp
  by_cases hv : cfg.valid_mask = true
  · simp only [hv, if_true] at hp
    exact mem_zip_self (List.mem_of_mem_filter hp)
  · simp only [hv, if_false] at hp
    exact mem_zip_self hp

theorem gList_self_zero (lg : ℚ → ℚ) (cfg : SigCfg) (t : T4 ℚ) :
    ∀ a ∈ SigLoss.gList lg cfg t t, a = 0 := by
  intro a ha
  unfold SigLoss.gList at ha
  rcases List.mem_map.1 ha with ⟨p, hp, rfl⟩
  rw [sigElems_self hp]
  exact sub_self _

theorem sigElems_nomask (lw : ℚ) (md : Option ℚ) (wu : Bool) (wi : ℕ)
    (input target : T4 ℚ) :
    SigLoss.sigElems ⟨false, lw, md, wu, wi⟩ input target
      = (elems4 input).zip (elems4 target) := by
  simp [SigLoss.sigElems]

/-- C5: with `valid_mask = False`, `SigLoss` works on all (flattened) element
pairs with no filtering; with `valid_mask = True` every selected pair has a
valid target (`target > 0`, and `target ≤ max_depth` when configured) — in
particular every element with `target ≤ 0` is excluded — and the masked loss
equals the unmasked loss run on the pre-filtered flat arrays. -/
theorem c5_sigloss_masking (lw : ℚ) (md : Option ℚ) (wu : Bool) (wi : ℕ)
    (lg sq : ℚ → ℚ) (c : ℕ) (input target : T4 ℚ) :
    SigLoss.sigElems ⟨false, lw, md, wu, wi⟩ input target
        = (elems4 input).zip (elems4 target)
    ∧ (∀ p ∈ SigLoss.sigElems ⟨true, lw, md, wu, wi⟩ input target,
        validB md p.2 = true)
    ∧ SigLoss.sigloss lg sq ⟨true, lw, md, wu, wi⟩ c input target
        = SigLoss.sigloss lg sq ⟨false, lw, md, wu, wi⟩ c
            (packT4 ((SigLoss.sigElems ⟨true, lw, md, wu, wi⟩ input target).map Prod.fst))
            (packT4 ((SigLoss.sigElems ⟨true, lw, md, wu, wi⟩ input target).map Prod.snd)) := by
  refine ⟨sigElems_nomask lw md wu wi input target, ?_, ?_⟩
  · intro p hp
    simp only [SigLoss.sigElems, if_true] at hp
    exact (List.mem_filter.1 hp).2
  · have hpairs : SigLoss.sigElems ⟨false, lw, md, wu, wi⟩
        (packT4 ((SigLoss.sigElems ⟨true, lw, md, wu, wi⟩ input target).map Prod.fst))
        (packT4 ((SigLoss.sigElems ⟨true, lw, md, wu, wi⟩ input target).map Prod.snd))
        = SigLoss.sigElems ⟨true, lw, md, wu, wi⟩ input target := by
      rw [sigElems_nomask, elems4_packT4, elems4_packT4, zip_map_fst_snd]
    unfold SigLoss.sigloss SigLoss.gList
    rw [hpairs]

/-- Witness for C5 (third conjunct) at a concrete input containing an invalid
(`target = 0`) position. -/
theorem c5_sigloss_masking_witness :
    SigLoss.sigloss (fun x => x) (fun x => x) ⟨true, 1, none, false, 100⟩ 0
        [[[[2, -1]]]] [[[[3, 0]]]]
      = SigLoss.sigloss (fun x => x) (fun x => x) ⟨false, 1, none, false, 100⟩ 0
          (packT4 ((SigLoss.sigElems ⟨true, 1, none, false, 100⟩
            [[[[2, -1]]]] [[[[3, 0]]]]).map Prod.fst))
          (packT4 ((SigLoss.sigElems ⟨true, 1, none, false, 100⟩
            [[[[2, -1]]]] [[[[3, 0]]]]).map Prod.snd)) :=
  (c5_sigloss_masking 1 none false 100 (fun x => x) (fun x => x) 0
    [[[[2, -1]]]] [[[[3, 0]]]]).2.2

/-- C7: for elementwise-equal prediction/target whose elements are all valid,
`GradientLoss.forward` is exactly 0, and `SigLoss.forward` outside the warm-up
branch (with at least two valid elements, and a square root sending 0 to 0) is
exactly 0, since the log-difference is uniformly 0. -/
theorem c7_equal_valid_zero (lg sq : ℚ → ℚ) (gcfg : GradCfg) (scfg : SigCfg)
    (c : ℕ) (pred target : T4 ℚ) (hpt : pred = target)
    (hvg : ∀ a ∈ elems4 target, validB gcfg.max_depth a = true)
    (hvs : ∀ a ∈ elems4 target, validB scfg.max_depth a = true)
    (hwarm : ¬(scfg.warm_up = true ∧ c < scfg.warm_iter))
    (hn : 2 ≤ (SigLoss.sigElems scfg pred target).length)
    (hsq0 : sq 0 = 0) :
    GradientLoss.forward lg gcfg pred target = 0
    ∧ (SigLoss.forward lg sq scfg c pred target).1 = 0 := by
  subst hpt
  constructor
  · unfold GradientLoss.forward
    rw [gradientloss_self_zero]
    exact mul_zero _
  · unfold SigLoss.forward
    rw [sigloss_val_full hwarm]
    have hg := gList_self_zero lg scfg pred
    rw [varQ_zero hg, meanQ_zero hg]
    norm_num [hsq0]

/-- Witness for C7 at a concrete all-valid equal pair with two elements. -/
theorem c7_equal_valid_zero_witness :
    GradientLoss.forward (fun x => x) ⟨true, 1, none⟩ [[[[1, 2]]]] [[[[1, 2]]]] = 0
    ∧ (SigLoss.forward (fun x => x) (fun _ => 0) ⟨true, 1, none, false, 100⟩ 0
        [[[[1, 2]]]] [[[[1, 2]]]]).1 = 0 :=
  c7_equal_valid_zero (fun x => x) (fun _ => 0) ⟨true, 1, none⟩
    ⟨true, 1, none, false, 100⟩ 0 [[[[1, 2]]]] [[[[1, 2]]]] rfl
    (by decide) (by decide) (by norm_num) (by decide) rfl

/-- C8: every argument the code passes to `torch.log` in `GradientLoss` and
`SigLoss` is an element offset by exactly `eps = 0.001`, so under non-negative
inputs every such argument is strictly positive; consequently both losses are
unchanged if the log function is replaced by any function agreeing with it on
positive arguments. -/
theorem c8_log_args_positive (gcfg : GradCfg) (scfg : SigCfg) (input target : T4 ℚ)
    (hi : ∀ a ∈ elems4 input, 0 ≤ a) (ht : ∀ a ∈ elems4 target, 0 ≤ a) :
    (∀ a ∈ GradientLoss.logArgs input target, 0 < a)
    ∧ (∀ a ∈ SigLoss.logArgs scfg input target, 0 < a)
    ∧ (∀ lg₁ lg₂ : ℚ → ℚ, (∀ x : ℚ, 0 < x → lg₁ x = lg₂ x) →
        GradientLoss.gradientloss lg₁ gcfg input target
          = GradientLoss.gradientloss lg₂ gcfg input target)
    ∧ (∀ (lg₁ lg₂ sq : ℚ → ℚ) (c : ℕ), (∀ x : ℚ, 0 < x → lg₁ x = lg₂ x) →
        SigLoss.sigloss lg₁ sq scfg c input target
          = SigLoss.sigloss lg₂ sq scfg c input target) := by
  refine ⟨?_, ?_, ?_, ?_⟩
  · intro a ha
    unfold GradientLoss.logArgs at ha
    rcases List.mem_flatMap.1 ha with ⟨t', ht', ha⟩
    rcases List.mem_map.1 ha with ⟨x, hx, rfl⟩
    rcases List.mem_append.1 ht' with h | h
    · have := hi x (downscaledList_elems_subset h hx)
      have := lossEps_pos
      linarith
    · have := ht x (downscaledList_elems_subset h hx)
      have := lossEps_pos
      linarith
  · intro a ha
    unfold SigLoss.logArgs at ha
    rcases List.mem_flatMap.1 ha with ⟨p, hp, ha⟩
    rcases sigElems_mem_parts hp with ⟨h1, h2⟩
    have e1 := hi _ h1
    have e2 := ht _ h2
    have := lossEps_pos
    simp only [List.mem_cons, List.not_mem_nil, or_false] at ha
    rcases ha with rfl | rfl
    · linarith
    · linarith
  · intro lg₁ lg₂ hf
    exact gradientloss_congr hf hi ht
  · intro lg₁ lg₂ sq c hf
    exact sigloss_congr hf hi ht

/-- Witness for C8: the gradient loss on a concrete non-negative input is
unchanged when the model log is replaced by a function differing from it on
non-positive arguments only. -/
theorem c8_log_args_positive_witness :
    GradientLoss.gradientloss (fun x => x) ⟨true, 1, none⟩ [[[[0, 1]]]] [[[[2, 3]]]]
      = GradientLoss.gradientloss (fun x => if 0 < x then x else 99) ⟨true, 1, none⟩
          [[[[0, 1]]]] [[[[2, 3]]]] :=
  (c8_log_args_positive ⟨true, 1, none⟩ ⟨true, 1, none, false, 100⟩
    [[[[0, 1]]]] [[[[2, 3]]]] (by decide) (by decide)).2.2.1
    (fun x => x) (fun x => if 0 < x then x else 99) (fun x hx => (if_pos hx).symm)

/-- C6: for `pred` equal to `target` elementwise, with a square-root model
that behaves as a genuine square root (at least `1e-8`, squaring back to its
argument) on every reshaped target row's squared norm — which real square
roots do exactly when the row is a nonzero vector, as every row with a
non-degenerate channel range is — `Cosine_MSE.forward` is exactly 0: the
cosine-embedding term of each row against itself vanishes and the MSE of the
two identically normalised arrays vanishes. -/
theorem c6_cosine_mse_zero (sq : ℚ → ℚ) (pred target : T4 ℚ) (hpt : pred = target)
    (hsq : ∀ r ∈ rearrangeBCHW target,
      sq (dotQ r r) * sq (dotQ r r) = dotQ r r
        ∧ (1/100000000 : ℚ) ≤ sq (dotQ r r)) :
    Cosine_MSE.forward sq pred target = 0 := by
  subst hpt
  unfold Cosine_MSE.forward
  have hcos : cosineEmbeddingLoss sq (rearrangeBCHW pred) (rearrangeBCHW pred)
      (List.replicate (rearrangeBCHW pred).length 1) = 0 := by
    unfold cosineEmbeddingLoss
    apply meanQ_zero
    intro x hx
    rcases mem_zipWith' hx with ⟨p, lab, hp, hlab, rfl⟩
    have hlab1 : lab = 1 := (List.mem_replicate.1 hlab).2
    have hpd : p.1 = p.2 := mem_zip_self hp
    have hp1 : p.1 ∈ rearrangeBCHW pred := by
      obtain ⟨a, b⟩ := p
      exact (List.of_mem_zip hp).1
    rw [hlab1, if_pos rfl, ← hpd]
    rcases hsq p.1 hp1 with ⟨hmul, hle⟩
    unfold cosSim
    rw [max_eq_left hle, hmul]
    have hs : (0 : ℚ) < sq (dotQ p.1 p.1) := lt_of_lt_of_le (by norm_num) hle
    have hd0 : dotQ p.1 p.1 ≠ 0 := by
      rw [← hmul]
      exact ne_of_gt (mul_pos hs hs)
    rw [div_self hd0, sub_self]
  have hmse : mseLoss
      (List.zipWith (fun r tr => normRow (rowMin tr) (rowMax tr) r)
        (rearrangeBCHW pred) (rearrangeBCHW pred))
      ((rearrangeBCHW pred).map (fun tr => normRow (rowMin tr) (rowMax tr) tr)) = 0 := by
    rw [List.zipWith_same]
    unfold mseLoss
    apply meanQ_zero
    intro x hx
    rw [List.zipWith_same, List.mem_flatten] at hx
    rcases hx with ⟨row, hrow, hx⟩
    rcases List.mem_map.1 hrow with ⟨a, _, rfl⟩
    rw [List.zipWith_same] at hx
    rcases List.mem_map.1 hx with ⟨p, _, rfl⟩
    simp
  rw [hcos, hmse, add_zero]

/-- Witness for C6: a 1×2×1×1 input whose single reshaped row is `[3, 4]`
(squared norm 25), with the square root modelled concretely at 25. -/
theorem c6_cosine_mse_zero_witness :
    Cosine_MSE.forward (fun q => if q = 25 then (5 : ℚ) else 0)
      [[[[3]], [[4]]]] [[[[3]], [[4]]]] = 0 := by
  refine c6_cosine_mse_zero (fun q => if q = 25 then (5 : ℚ) else 0)
    [[[[3]], [[4]]]] [[[[3]], [[4]]]] rfl ?_
  intro r hr
  have hr34 : r = [3, 4] := by
    simp [rearrangeBCHW] at hr
    exact hr.symm
  subst hr34
  norm_num [dotQ]
